import Mathlib

/-!
Verification of the PDF segmentation tool (`main.py`).

The development shallowly embeds the two functions of the source,
`analyze_whitespace` and `segment_pdf`, over an abstract document model:
a document is a list of pages, each page carrying its geometry and the
text blocks that the external PDF library would report for it.
Coordinates are modelled as rationals.  File output is modelled as the
list of (segment number, output pages) pairs the function saves.
-/

/-- One text block as reported by `page.get_text("blocks")`:
`(x0, y0, x1, y1, text)`. -/
structure Block where
  x0 : ℚ
  y0 : ℚ
  x1 : ℚ
  y1 : ℚ
  text : String
deriving DecidableEq, Repr

/-- One page of the input document: its geometry (`page.rect`) and its
text blocks. -/
structure Page where
  width : ℚ
  height : ℚ
  blocks : List Block
deriving DecidableEq, Repr

/-- A line record as built in `analyze_whitespace`:
`{top: y0, bottom: y1, text: text.strip(), page_num}`. -/
structure LineRecord where
  top : ℚ
  bottom : ℚ
  text : String
  page_num : ℕ
deriving DecidableEq, Repr

/-- A whitespace entry `(diff, i-1, i)` from `analyze_whitespace`. -/
structure WhitespaceEntry where
  diff : ℚ
  start_idx : ℕ
  end_idx : ℕ
deriving DecidableEq, Repr

/-- One `insert_text((x, y), text)` call on an output page. -/
structure Placement where
  x : ℚ
  y : ℚ
  text : String
deriving DecidableEq, Repr

/-- One output page created by `output_pdf.new_page(...)` together with
the text placements made on it. -/
structure OutPage where
  width : ℚ
  height : ℚ
  texts : List Placement
deriving DecidableEq, Repr

/-- The observable outcome of `segment_pdf`: either the mismatch message
`(achieved, requested)` with no files, or the saved files, each a
segment number (1-indexed) with its output pages. -/
structure SegResult where
  mismatch : Option (ℕ × ℕ)
  files : List (ℕ × List OutPage)
deriving DecidableEq, Repr

/-- Python's `str.strip()`: remove leading and trailing whitespace.
Written over the character list so that it is structurally recursive. -/
def pyStrip (s : String) : String :=
  ⟨((s.data.dropWhile Char.isWhitespace).reverse.dropWhile Char.isWhitespace).reverse⟩

/-- Python's `round`: round half to even (banker's rounding). -/
def pyRound (q : ℚ) : ℤ :=
  if q - ⌊q⌋ < 1/2 then ⌊q⌋
  else if 1/2 < q - ⌊q⌋ then ⌊q⌋ + 1
  else if ⌊q⌋ % 2 = 0 then ⌊q⌋ else ⌊q⌋ + 1

/-- Model of `round(diff * 2) / 2` from `group_whitespace`: round to
the nearest 0.5. -/
def roundHalf (q : ℚ) : ℚ := (pyRound (q * 2) : ℚ) / 2

/-- The comparison used to sort a page's line records:
`key=lambda x: x['top']`. -/
def topLe (a b : LineRecord) : Prop := a.top ≤ b.top

instance : DecidableRel topLe := fun a b => inferInstanceAs (Decidable (a.top ≤ b.top))

instance : IsTotal LineRecord topLe := ⟨fun a b => le_total a.top b.top⟩

instance : IsTrans LineRecord topLe := ⟨fun _ _ _ h₁ h₂ => le_trans h₁ h₂⟩

/-- The comparison used to sort whitespace entries: `key=lambda x: x[0]`. -/
def diffLe (a b : WhitespaceEntry) : Prop := a.diff ≤ b.diff

instance : DecidableRel diffLe := fun a b => inferInstanceAs (Decidable (a.diff ≤ b.diff))

instance : IsTotal WhitespaceEntry diffLe := ⟨fun a b => le_total a.diff b.diff⟩

instance : IsTrans WhitespaceEntry diffLe := ⟨fun _ _ _ h₁ h₂ => le_trans h₁ h₂⟩

/-- The line records of one page, before sorting: blocks with non-empty
stripped text, in block order. -/
def pageRecords (p : ℕ) (pg : Page) : List LineRecord :=
  (pg.blocks.filter fun b => pyStrip b.text ≠ "").map fun b =>
    { top := b.y0, bottom := b.y1, text := pyStrip b.text, page_num := p }

/-- The page loop of `analyze_whitespace` from page index `k` on: each
page's records are sorted by `top` (Python's stable sort) and appended. -/
def extractFrom : ℕ → List Page → List LineRecord
  | _, [] => []
  | k, pg :: rest => List.insertionSort topLe (pageRecords k pg) ++ extractFrom (k + 1) rest

/-- The list `all_line_positions` as returned by `analyze_whitespace`. -/
def extractLines (doc : List Page) : List LineRecord := extractFrom 0 doc

/-- The same concatenation without the per-page sort (used to state
stability of the sort). -/
def rawFrom : ℕ → List Page → List LineRecord
  | _, [] => []
  | k, pg :: rest => pageRecords k pg ++ rawFrom (k + 1) rest

/-- All candidate records in original block order. -/
def rawRecords (doc : List Page) : List LineRecord := rawFrom 0 doc

/-- The whitespace loop of `analyze_whitespace`, carrying the index of
the earlier record: entry `(abs(lines[i].top - lines[i-1].bottom), i-1, i)`. -/
def wsAux : ℕ → List LineRecord → List WhitespaceEntry
  | _, [] => []
  | _, [_] => []
  | k, a :: b :: rest => ⟨|b.top - a.bottom|, k, k + 1⟩ :: wsAux (k + 1) (b :: rest)

/-- The list `whitespace_diff` as returned by `analyze_whitespace`. -/
def whitespaceDiffs (lines : List LineRecord) : List WhitespaceEntry := wsAux 0 lines

/-- Model of `analyze_whitespace`: the line records and their whitespace entries. -/
def analyzeWhitespace (doc : List Page) : List LineRecord × List WhitespaceEntry :=
  (extractLines doc, whitespaceDiffs (extractLines doc))

/-- Model of `sorted(group_whitespace(whitespace_diff).items())`: the whitespace
entries, sorted by gap, bucketed by their gap rounded to the nearest 0.5,
with the distinct rounded values in ascending order.  Each bucket lists
its entries in sorted-by-gap insertion order, as the Python dict does. -/
def sortedGroups (ws : List WhitespaceEntry) : List (ℚ × List WhitespaceEntry) :=
  let s := List.insertionSort diffLe ws
  let keys := List.insertionSort (· ≤ ·) ((s.map fun e => roundHalf e.diff).dedup)
  keys.map fun k => (k, s.filter fun e => roundHalf e.diff = k)

/-- The inner loop over one group's entries: skip entries whose
`start_idx` is already a boundary, append `end_idx` otherwise, and break
once `current_group_count` reaches `num_segments - 1` (the `target`). -/
def selectFromGroup (target : ℕ) : List WhitespaceEntry → List ℕ → ℕ → List ℕ × ℕ
  | [], bs, cnt => (bs, cnt)
  | e :: rest, bs, cnt =>
    if e.start_idx ∈ bs then selectFromGroup target rest bs cnt
    else if target ≤ cnt + 1 then (bs ++ [e.end_idx], cnt + 1)
    else selectFromGroup target rest (bs ++ [e.end_idx]) (cnt + 1)

/-- The outer loop over the sorted groups: break as soon as the boundary
list has reached `num_segments` elements. -/
def selectLoop (n : ℕ) : List (ℚ × List WhitespaceEntry) → List ℕ → ℕ → List ℕ
  | [], bs, _ => bs
  | g :: rest, bs, cnt =>
    if n ≤ bs.length then bs
    else
      let r := selectFromGroup (n - 1) g.2 bs cnt
      selectLoop n rest r.1 r.2

/-- The list `segment_boundaries` right before the count check: the selection
loop started from `[0]`, then the final boundary `len(line_positions)`
appended when the current last element differs from it. -/
def segmentBoundaries (ws : List WhitespaceEntry) (total n : ℕ) : List ℕ :=
  let bs := selectLoop n (sortedGroups ws) [0] 0
  if bs.getLastD 0 ≠ total then bs ++ [total] else bs

/-- The boundary list `segment_pdf` computes for a document. -/
def boundariesOf (doc : List Page) (n : ℕ) : List ℕ :=
  segmentBoundaries (whitespaceDiffs (extractLines doc)) (extractLines doc).length n

/-- The page loop of the output construction for one segment: for each
page, the segment's records on that page; when some exist, a new page of
the source page's dimensions holding `insert_text((10, top), text)` for
each of them. -/
def buildAux (seg : List LineRecord) : ℕ → List Page → List OutPage
  | _, [] => []
  | k, pg :: rest =>
    (if (seg.filter fun l => l.page_num = k).isEmpty then [] else
      [{ width := pg.width, height := pg.height,
         texts := (seg.filter fun l => l.page_num = k).map fun l =>
           { x := 10, y := l.top, text := l.text } }]) ++
    buildAux seg (k + 1) rest

/-- Model of `segment_pdf`: compute the boundaries, run the count check, and on
success save every segment that produced at least one output page. -/
def segmentPdf (doc : List Page) (n : ℕ) : SegResult :=
  let lines := extractLines doc
  let bs := boundariesOf doc n
  if bs.length = n + 1 then
    { mismatch := none
      files := (List.range n).filterMap fun i =>
        let seg := (lines.drop (bs.getD i 0)).take (bs.getD (i + 1) 0 - bs.getD i 0)
        let pages := buildAux seg 0 doc
        if pages.isEmpty then none else some (i + 1, pages) }
  else
    { mismatch := some (bs.length - 1, n), files := [] }

/-- A block spanning `[y0, y1]` vertically with the given text. -/
def mkBlock (y0 y1 : ℚ) (t : String) : Block :=
  { x0 := 0, y0 := y0, x1 := 50, y1 := y1, text := t }

/-- Five lines on one page whose gaps are `1.2, 1.2, 5, 1`: the gaps
`1.2, 1.2, 1` share the rounded value `1`, and sorting by exact gap puts
the last entry first inside that group. -/
def exDocC1 : List Page :=
  [{ width := 100, height := 100,
     blocks := [mkBlock 0 1 "a", mkBlock (11/5) 3 "b", mkBlock (21/5) 5 "c",
                mkBlock 10 11 "d", mkBlock 12 13 "e"] }]

/-- Five lines on one page, every gap equal to `1`: a single whitespace
group. -/
def exDocC3 : List Page :=
  [{ width := 100, height := 100,
     blocks := [mkBlock 0 1 "a", mkBlock 2 3 "b", mkBlock 4 5 "c",
                mkBlock 6 7 "d", mkBlock 8 9 "e"] }]

/-- A one-line document. -/
def exDocOne : List Page :=
  [{ width := 100, height := 100, blocks := [mkBlock 5 6 "hello "] }]

/-- A two-line document with a single gap. -/
def exDocTwo : List Page :=
  [{ width := 100, height := 100, blocks := [mkBlock 0 1 "a", mkBlock 4 5 "b"] }]


/-- A one-page document whose only block is blank, so no line record
survives extraction. -/
def exDocBlank : List Page :=
  [{ width := 100, height := 100, blocks := [mkBlock 0 1 "   "] }]

/-- Default line record, used with `List.getD`. -/
def dRec : LineRecord := { top := 0, bottom := 0, text := "", page_num := 0 }

/-- Default whitespace entry, used with `List.getD`. -/
def dEntry : WhitespaceEntry := { diff := 0, start_idx := 0, end_idx := 0 }

/-! ### Helper lemmas -/

theorem pyRound_intCast (n : ℤ) : pyRound (n : ℚ) = n := by
  unfold pyRound
  rw [Int.floor_intCast]
  norm_num

theorem selectFromGroup_append (t : ℕ) (items : List WhitespaceEntry) (bs : List ℕ)
    (cnt : ℕ) : ∃ ex, (selectFromGroup t items bs cnt).1 = bs ++ ex := by
  induction items generalizing bs cnt with
  | nil => exact ⟨[], by simp [selectFromGroup]⟩
  | cons e rest ih =>
    simp only [selectFromGroup]
    by_cases h1 : e.start_idx ∈ bs
    · rw [if_pos h1]; exact ih bs cnt
    · rw [if_neg h1]
      by_cases h2 : t ≤ cnt + 1
      · rw [if_pos h2]; exact ⟨[e.end_idx], rfl⟩
      · rw [if_neg h2]
        obtain ⟨ex, hex⟩ := ih (bs ++ [e.end_idx]) (cnt + 1)
        exact ⟨e.end_idx :: ex, by rw [hex, List.append_assoc]; rfl⟩

theorem selectLoop_append (n : ℕ) (gs : List (ℚ × List WhitespaceEntry)) (bs : List ℕ)
    (cnt : ℕ) : ∃ ex, selectLoop n gs bs cnt = bs ++ ex := by
  induction gs generalizing bs cnt with
  | nil => exact ⟨[], by simp [selectLoop]⟩
  | cons g rest ih =>
    simp only [selectLoop]
    by_cases h : n ≤ bs.length
    · rw [if_pos h]; exact ⟨[], by simp⟩
    · rw [if_neg h]
      obtain ⟨ex1, hex1⟩ := selectFromGroup_append (n - 1) g.2 bs cnt
      obtain ⟨ex2, hex2⟩ :=
        ih (selectFromGroup (n - 1) g.2 bs cnt).1 (selectFromGroup (n - 1) g.2 bs cnt).2
      exact ⟨ex1 ++ ex2, by rw [hex2, hex1, List.append_assoc]⟩

theorem getLast?_of_getLastD {l : List ℕ} {m : ℕ} (hne : l ≠ []) (h : l.getLastD 0 = m) :
    l.getLast? = some m := by
  rw [List.getLastD_eq_getLast?] at h
  cases hl : l.getLast? with
  | none => exact absurd (List.getLast?_eq_none_iff.mp hl) hne
  | some x => rw [hl] at h; simp only [Option.getD_some] at h; rw [h]

theorem segmentBoundaries_head (ws : List WhitespaceEntry) (total n : ℕ) :
    (segmentBoundaries ws total n).head? = some 0 := by
  obtain ⟨ex, hex⟩ := selectLoop_append n (sortedGroups ws) [0] 0
  simp only [segmentBoundaries, hex]
  split <;> simp

theorem segmentBoundaries_getLast (ws : List WhitespaceEntry) (total n : ℕ) :
    (segmentBoundaries ws total n).getLast? = some total := by
  obtain ⟨ex, hex⟩ := selectLoop_append n (sortedGroups ws) [0] 0
  simp only [segmentBoundaries]
  split
  · exact List.getLast?_concat _
  · next h =>
    push_neg at h
    exact getLast?_of_getLastD (by rw [hex]; simp) h

theorem segmentPdf_mismatch_none_iff (doc : List Page) (n : ℕ) :
    (segmentPdf doc n).mismatch = none ↔ (boundariesOf doc n).length = n + 1 := by
  simp only [segmentPdf]
  split
  · next h => simp [h]
  · next h => simp [h]

theorem segmentPdf_mismatch_eq (doc : List Page) (n : ℕ)
    (h : (boundariesOf doc n).length ≠ n + 1) :
    segmentPdf doc n = { mismatch := some ((boundariesOf doc n).length - 1, n), files := [] } := by
  simp only [segmentPdf]
  rw [if_neg h]

theorem boundariesOf_extract_nil (doc : List Page) (n : ℕ) (h0 : extractLines doc = []) :
    boundariesOf doc n = [0] := by
  unfold boundariesOf
  rw [h0]
  rfl

theorem boundariesOf_extract_single (doc : List Page) (n : ℕ) (r : LineRecord)
    (h1 : extractLines doc = [r]) : boundariesOf doc n = [0, 1] := by
  unfold boundariesOf
  rw [h1]
  rfl

/-! ### Claim C8: rounding to the nearest 0.5 is idempotent -/

/-- C8: the round-to-nearest-0.5 operation used for grouping gaps
(`round(x * 2) / 2`) is idempotent: applying it to an already-rounded
value returns the same value. -/
theorem roundHalf_idempotent (q : ℚ) : roundHalf (roundHalf q) = roundHalf q := by
  unfold roundHalf
  rw [div_mul_cancel₀ _ (by norm_num : (2 : ℚ) ≠ 0), pyRound_intCast]

/-! ### Claim C1: shape of the boundary list on success -/

/-- C1 (amended): whenever `segment_pdf` passes the boundary-count check,
the boundary list has length `num_segments + 1`, starts at `0` and ends
at the total number of line records.  (The strict-increase part of the
original claim is false; see the counterexample.) -/
theorem segmenter_success_boundary_shape (doc : List Page) (n : ℕ)
    (h : (segmentPdf doc n).mismatch = none) :
    (boundariesOf doc n).length = n + 1 ∧
    (boundariesOf doc n).head? = some 0 ∧
    (boundariesOf doc n).getLast? = some (extractLines doc).length :=
  ⟨(segmentPdf_mismatch_none_iff doc n).mp h,
   segmentBoundaries_head _ _ _,
   segmentBoundaries_getLast _ _ _⟩

/-- C1 witness: a concrete successful run. -/
theorem segmenter_success_boundary_shape_witness :
    (boundariesOf exDocOne 1).length = 1 + 1 ∧
    (boundariesOf exDocOne 1).head? = some 0 ∧
    (boundariesOf exDocOne 1).getLast? = some (extractLines exDocOne).length :=
  segmenter_success_boundary_shape exDocOne 1 (by with_unfolding_all decide)

/-- C1 counterexample: on `exDocC1` with `num_segments = 3` the count
check passes (the Segmenter succeeds) yet the boundary list is not
strictly increasing. -/
theorem segmenter_boundaries_not_strictly_increasing :
    (segmentPdf exDocC1 3).mismatch = none ∧
    ¬ List.Sorted (· < ·) (boundariesOf exDocC1 3) :=
  ⟨by with_unfolding_all decide, by with_unfolding_all decide⟩

/-! ### Claim C2: the mismatch path writes nothing -/

/-- C2: when the Segmenter cannot produce `num_segments` boundaries (the
boundary-list length differs from `num_segments + 1`), `segment_pdf`
reports the mismatch message naming the achieved and the requested
segment counts and returns with no file written. -/
theorem mismatch_reports_and_writes_nothing (doc : List Page) (n : ℕ)
    (h : (boundariesOf doc n).length ≠ n + 1) :
    (segmentPdf doc n).mismatch = some ((boundariesOf doc n).length - 1, n) ∧
    (segmentPdf doc n).files = [] := by
  rw [segmentPdf_mismatch_eq doc n h]
  exact ⟨rfl, rfl⟩

/-- C2 witness: a two-line document split into two segments hits the
mismatch path. -/
theorem mismatch_reports_and_writes_nothing_witness :
    (segmentPdf exDocTwo 2).mismatch = some ((boundariesOf exDocTwo 2).length - 1, 2) ∧
    (segmentPdf exDocTwo 2).files = [] :=
  mismatch_reports_and_writes_nothing exDocTwo 2 (by with_unfolding_all decide)

/-! ### Claim C10: documents with no extractable line always mismatch -/

/-- C10: when no line record is extracted, for every requested
`num_segments ≥ 1` the boundary list stays `[0]`, the count check fails,
the mismatch message is printed and no segment file is written. -/
theorem zero_lines_always_mismatch (doc : List Page) (n : ℕ) (hn : 1 ≤ n)
    (h0 : extractLines doc = []) :
    boundariesOf doc n = [0] ∧
    (segmentPdf doc n).mismatch = some (0, n) ∧
    (segmentPdf doc n).files = [] := by
  have hb : boundariesOf doc n = [0] := boundariesOf_extract_nil doc n h0
  have hlen : (boundariesOf doc n).length ≠ n + 1 := by
    rw [hb]
    simpa using by omega
  rw [segmentPdf_mismatch_eq doc n hlen, hb]
  exact ⟨rfl, rfl, rfl⟩

/-- C10 witness: a document whose only block is blank, requested into
two segments. -/
theorem zero_lines_always_mismatch_witness :
    boundariesOf exDocBlank 2 = [0] ∧
    (segmentPdf exDocBlank 2).mismatch = some (0, 2) ∧
    (segmentPdf exDocBlank 2).files = [] :=
  zero_lines_always_mismatch exDocBlank 2 (by norm_num) (by with_unfolding_all decide)

theorem wsAux_length (k : ℕ) (l : List LineRecord) : (wsAux k l).length = l.length - 1 := by
  induction l generalizing k with
  | nil => rfl
  | cons a t ih =>
    cases t with
    | nil => rfl
    | cons b rest =>
      have := ih (k + 1)
      simp only [wsAux, List.length_cons] at this ⊢
      omega

theorem wsAux_getD (l : List LineRecord) (k i : ℕ) (h : i < (wsAux k l).length) :
    (wsAux k l).getD i dEntry =
      { diff := |(l.getD (i + 1) dRec).top - (l.getD i dRec).bottom|,
        start_idx := k + i, end_idx := k + i + 1 } := by
  induction l generalizing k i with
  | nil => simp [wsAux] at h
  | cons a t ih =>
    cases t with
    | nil => simp [wsAux] at h
    | cons b rest =>
      cases i with
      | zero => simp [wsAux]
      | succ j =>
        have hj : j < (wsAux (k + 1) (b :: rest)).length := by
          simpa [wsAux] using h
        have hrec := ih (k + 1) j hj
        have harith : k + 1 + j = k + (j + 1) := by omega
        rw [harith] at hrec
        simp only [wsAux, List.getD_cons_succ]
        exact hrec

theorem wsAux_end_eq (k : ℕ) (l : List LineRecord) :
    ∀ e ∈ wsAux k l, e.end_idx = e.start_idx + 1 := by
  induction l generalizing k with
  | nil => simp [wsAux]
  | cons a t ih =>
    cases t with
    | nil => simp [wsAux]
    | cons b rest =>
      intro e he
      simp only [wsAux, List.mem_cons] at he
      rcases he with rfl | he
      · rfl
      · exact ih (k + 1) e he

theorem mem_of_mem_sortedGroups {ws : List WhitespaceEntry} {g : ℚ × List WhitespaceEntry}
    (hg : g ∈ sortedGroups ws) {e : WhitespaceEntry} (he : e ∈ g.2) : e ∈ ws := by
  simp only [sortedGroups, List.mem_map] at hg
  obtain ⟨k, _, rfl⟩ := hg
  exact (List.perm_insertionSort diffLe ws).mem_iff.mp (List.mem_filter.mp he).1

theorem selectFromGroup_not_one (t : ℕ) (items : List WhitespaceEntry) (bs : List ℕ)
    (cnt : ℕ) (h0 : 0 ∈ bs) (h1 : (1 : ℕ) ∉ bs)
    (he : ∀ e ∈ items, e.end_idx = e.start_idx + 1) :
    0 ∈ (selectFromGroup t items bs cnt).1 ∧ (1 : ℕ) ∉ (selectFromGroup t items bs cnt).1 := by
  induction items generalizing bs cnt with
  | nil => simp only [selectFromGroup]; exact ⟨h0, h1⟩
  | cons e rest ih =>
    simp only [selectFromGroup]
    by_cases hs : e.start_idx ∈ bs
    · rw [if_pos hs]
      exact ih bs cnt h0 h1 fun x hx => he x (List.mem_cons_of_mem _ hx)
    · rw [if_neg hs]
      have hone : e.end_idx ≠ 1 := by
        intro hcontra
        have hse := he e (List.mem_cons_self e rest)
        have hstart : e.start_idx = 0 := by omega
        exact hs (hstart ▸ h0)
      have h0a : 0 ∈ bs ++ [e.end_idx] := List.mem_append_left _ h0
      have h1a : (1 : ℕ) ∉ bs ++ [e.end_idx] := by
        intro hmem
        rcases List.mem_append.mp hmem with hmem | hmem
        · exact h1 hmem
        · rw [List.mem_singleton] at hmem
          exact hone hmem.symm
      by_cases ht : t ≤ cnt + 1
      · rw [if_pos ht]; exact ⟨h0a, h1a⟩
      · rw [if_neg ht]
        exact ih _ _ h0a h1a fun x hx => he x (List.mem_cons_of_mem _ hx)

theorem selectLoop_not_one (n : ℕ) (gs : List (ℚ × List WhitespaceEntry)) (bs : List ℕ)
    (cnt : ℕ) (h0 : 0 ∈ bs) (h1 : (1 : ℕ) ∉ bs)
    (he : ∀ g ∈ gs, ∀ e ∈ g.2, e.end_idx = e.start_idx + 1) :
    0 ∈ selectLoop n gs bs cnt ∧ (1 : ℕ) ∉ selectLoop n gs bs cnt := by
  induction gs generalizing bs cnt with
  | nil => simp only [selectLoop]; exact ⟨h0, h1⟩
  | cons g rest ih =>
    simp only [selectLoop]
    by_cases h : n ≤ bs.length
    · rw [if_pos h]; exact ⟨h0, h1⟩
    · rw [if_neg h]
      obtain ⟨h0a, h1a⟩ := selectFromGroup_not_one (n - 1) g.2 bs cnt h0 h1
        (he g (List.mem_cons_self g rest))
      exact ih _ _ h0a h1a fun x hx => he x (List.mem_cons_of_mem _ hx)

/-! ### Claim C5: shape of the whitespace entries -/

/-- C5: the Extractor returns `len(line_records) - 1` whitespace entries
when there are at least two line records and `0` otherwise, and the
`i`-th entry carries the absolute vertical distance between record
`i+1`'s top and record `i`'s bottom together with those two indices. -/
theorem whitespace_entry_shape (lines : List LineRecord) :
    (2 ≤ lines.length → (whitespaceDiffs lines).length = lines.length - 1) ∧
    (lines.length < 2 → (whitespaceDiffs lines).length = 0) ∧
    (∀ i, i < (whitespaceDiffs lines).length →
      (whitespaceDiffs lines).getD i dEntry =
        { diff := |(lines.getD (i + 1) dRec).top - (lines.getD i dRec).bottom|,
          start_idx := i, end_idx := i + 1 }) := by
  refine ⟨fun _ => wsAux_length 0 lines, fun h => ?_, fun i hi => ?_⟩
  · have := wsAux_length 0 lines
    unfold whitespaceDiffs
    omega
  · simpa using wsAux_getD lines 0 i hi

/-- C5 witness: the five-line document. -/
theorem whitespace_entry_shape_witness :
    (whitespaceDiffs (extractLines exDocC3)).length = (extractLines exDocC3).length - 1 ∧
    (whitespaceDiffs (extractLines exDocC3)).getD 2 dEntry =
      { diff := |((extractLines exDocC3).getD 3 dRec).top -
          ((extractLines exDocC3).getD 2 dRec).bottom|,
        start_idx := 2, end_idx := 3 } :=
  ⟨(whitespace_entry_shape (extractLines exDocC3)).1 (by with_unfolding_all decide),
   (whitespace_entry_shape (extractLines exDocC3)).2.2 2 (by with_unfolding_all decide)⟩

/-! ### Claim C9: boundary index 1 never appears on success -/

theorem selectFromGroup_append_mem (t : ℕ) (items : List WhitespaceEntry) (bs : List ℕ)
    (cnt : ℕ) :
    ∃ ex, (selectFromGroup t items bs cnt).1 = bs ++ ex ∧
      ∀ x ∈ ex, ∃ e ∈ items, x = e.end_idx := by
  induction items generalizing bs cnt with
  | nil => exact ⟨[], by simp [selectFromGroup], by simp⟩
  | cons e rest ih =>
    simp only [selectFromGroup]
    by_cases h1 : e.start_idx ∈ bs
    · rw [if_pos h1]
      obtain ⟨ex, hex, hm⟩ := ih bs cnt
      refine ⟨ex, hex, fun x hx => ?_⟩
      obtain ⟨e2, he2, hxe⟩ := hm x hx
      exact ⟨e2, List.mem_cons_of_mem _ he2, hxe⟩
    · rw [if_neg h1]
      by_cases h2 : t ≤ cnt + 1
      · rw [if_pos h2]
        refine ⟨[e.end_idx], rfl, fun x hx => ?_⟩
        rw [List.mem_singleton] at hx
        exact ⟨e, List.mem_cons_self e rest, hx⟩
      · rw [if_neg h2]
        obtain ⟨ex, hex, hm⟩ := ih (bs ++ [e.end_idx]) (cnt + 1)
        refine ⟨e.end_idx :: ex, by rw [hex, List.append_assoc]; rfl, fun x hx => ?_⟩
        rcases List.mem_cons.mp hx with rfl | hx
        · exact ⟨e, List.mem_cons_self e rest, rfl⟩
        · obtain ⟨e2, he2, hxe⟩ := hm x hx
          exact ⟨e2, List.mem_cons_of_mem _ he2, hxe⟩

theorem selectLoop_append_mem (n : ℕ) (gs : List (ℚ × List WhitespaceEntry))
    (bs : List ℕ) (cnt : ℕ) :
    ∃ ex, selectLoop n gs bs cnt = bs ++ ex ∧
      ∀ x ∈ ex, ∃ g ∈ gs, ∃ e ∈ g.2, x = e.end_idx := by
  induction gs generalizing bs cnt with
  | nil => exact ⟨[], by simp [selectLoop], by simp⟩
  | cons g rest ih =>
    simp only [selectLoop]
    by_cases h : n ≤ bs.length
    · rw [if_pos h]; exact ⟨[], by simp, by simp⟩
    · rw [if_neg h]
      obtain ⟨ex1, hex1, hm1⟩ := selectFromGroup_append_mem (n - 1) g.2 bs cnt
      obtain ⟨ex2, hex2, hm2⟩ :=
        ih (selectFromGroup (n - 1) g.2 bs cnt).1 (selectFromGroup (n - 1) g.2 bs cnt).2
      refine ⟨ex1 ++ ex2, by rw [hex2, hex1, List.append_assoc], fun x hx => ?_⟩
      rcases List.mem_append.mp hx with hx | hx
      · obtain ⟨e, he, hxe⟩ := hm1 x hx
        exact ⟨g, List.mem_cons_self g rest, e, he, hxe⟩
      · obtain ⟨g2, hg2, e, he, hxe⟩ := hm2 x hx
        exact ⟨g2, List.mem_cons_of_mem _ hg2, e, he, hxe⟩

/-- C9: whenever `segment_pdf` succeeds with `num_segments ≥ 2`, the
index `1` never appears in the boundary list: the initial boundary `0`
is always present, so the whitespace entry `(gap, 0, 1)` is always
skipped; consequently the first segment slice holds at least two line
records. -/
theorem boundary_one_never_selected (doc : List Page) (n : ℕ) (hn : 2 ≤ n)
    (h : (segmentPdf doc n).mismatch = none) :
    (1 : ℕ) ∉ boundariesOf doc n ∧
    2 ≤ (((extractLines doc).drop ((boundariesOf doc n).getD 0 0)).take
      ((boundariesOf doc n).getD 1 0 - (boundariesOf doc n).getD 0 0)).length := by
  have hlen := (segmentPdf_mismatch_none_iff doc n).mp h
  have hent : ∀ g ∈ sortedGroups (whitespaceDiffs (extractLines doc)), ∀ e ∈ g.2,
      e.end_idx = e.start_idx + 1 := by
    intro g hg e he
    exact wsAux_end_eq 0 (extractLines doc) e (mem_of_mem_sortedGroups hg he)
  obtain ⟨h0, h1⟩ := selectLoop_not_one n (sortedGroups (whitespaceDiffs (extractLines doc)))
    [0] 0 (by simp) (by simp) hent
  have hL2 : 2 ≤ (extractLines doc).length := by
    by_contra hcon
    push_neg at hcon
    have hsplit : (extractLines doc).length = 0 ∨ (extractLines doc).length = 1 := by omega
    rcases hsplit with hl0 | hl1
    · rw [boundariesOf_extract_nil doc n (List.length_eq_zero.mp hl0)] at hlen
      simp only [List.length_singleton] at hlen
      omega
    · obtain ⟨r, hr⟩ := List.length_eq_one.mp hl1
      rw [boundariesOf_extract_single doc n r hr] at hlen
      simp only [List.length_cons, List.length_nil] at hlen
      omega
  have htot : (extractLines doc).length ≠ 1 := by omega
  have hnot1 : (1 : ℕ) ∉ boundariesOf doc n := by
    intro hmem
    simp only [boundariesOf, segmentBoundaries] at hmem
    split at hmem
    · rcases List.mem_append.mp hmem with hmem | hmem
      · exact h1 hmem
      · rw [List.mem_singleton] at hmem
        exact htot hmem.symm
    · exact h1 hmem
  refine ⟨hnot1, ?_⟩
  obtain ⟨ex, hex, hmem⟩ :=
    selectLoop_append_mem n (sortedGroups (whitespaceDiffs (extractLines doc))) [0] 0
  cases ex with
  | nil =>
    exfalso
    have hb : boundariesOf doc n = [0, (extractLines doc).length] := by
      simp only [boundariesOf, segmentBoundaries, hex, List.append_nil]
      rw [if_pos (show ([0] : List ℕ).getLastD 0 ≠ (extractLines doc).length by
        show (0 : ℕ) ≠ (extractLines doc).length
        omega)]
      rfl
    rw [hb] at hlen
    simp only [List.length_cons, List.length_nil] at hlen
    omega
  | cons x ex2 =>
    have hxsel : x ∈ selectLoop n (sortedGroups (whitespaceDiffs (extractLines doc))) [0] 0 := by
      rw [hex]; simp
    have hx1 : x ≠ 1 := fun hcon => h1 (hcon ▸ hxsel)
    have hxge : 1 ≤ x := by
      obtain ⟨g, hg, e, he, hxe⟩ := hmem x (List.mem_cons_self x ex2)
      have := hent g hg e he
      omega
    have hx2 : 2 ≤ x := by omega
    have hb01 : (boundariesOf doc n).getD 0 0 = 0 ∧ (boundariesOf doc n).getD 1 0 = x := by
      simp only [boundariesOf, segmentBoundaries, hex]
      split <;> constructor <;> simp
    rw [hb01.1, hb01.2]
    simp only [List.drop_zero, Nat.sub_zero, List.length_take]
    exact le_min hx2 hL2

/-- C9 witness: the equal-gap five-line document split into three
segments succeeds, its boundary list avoids index 1, and its first
segment holds two records. -/
theorem boundary_one_never_selected_witness :
    (1 : ℕ) ∉ boundariesOf exDocC3 3 ∧
    2 ≤ (((extractLines exDocC3).drop ((boundariesOf exDocC3 3).getD 0 0)).take
      ((boundariesOf exDocC3 3).getD 1 0 - (boundariesOf exDocC3 3).getD 0 0)).length :=
  boundary_one_never_selected exDocC3 3 (by norm_num) (by with_unfolding_all decide)

theorem sum_map_add {β : Type} (ks : List β) (f g : β → ℕ) :
    (ks.map fun k => f k + g k).sum = (ks.map f).sum + (ks.map g).sum := by
  induction ks with
  | nil => rfl
  | cons k ks ih => simp only [List.map_cons, List.sum_cons, ih]; omega

theorem sum_map_indicator_of_not_mem {β : Type} [DecidableEq β] (ks : List β) (b : β)
    (hb : b ∉ ks) : (ks.map fun k => if b = k then 1 else 0).sum = 0 := by
  induction ks with
  | nil => rfl
  | cons k ks ih =>
    simp only [List.map_cons, List.sum_cons]
    rw [if_neg (by intro hk; exact hb (hk ▸ List.mem_cons_self k ks)),
      ih fun hk => hb (List.mem_cons_of_mem _ hk)]

theorem sum_map_indicator_of_mem {β : Type} [DecidableEq β] (ks : List β) (b : β)
    (hK : ks.Nodup) (hb : b ∈ ks) :
    (ks.map fun k => if b = k then 1 else 0).sum = 1 := by
  induction ks with
  | nil => simp at hb
  | cons k ks ih =>
    simp only [List.map_cons, List.sum_cons]
    rcases List.mem_cons.mp hb with rfl | hb2
    · rw [if_pos rfl, sum_map_indicator_of_not_mem ks b (List.nodup_cons.mp hK).1]
    · have hbk : b ≠ k := by
        intro hk
        exact (List.nodup_cons.mp hK).1 (hk ▸ hb2)
      rw [if_neg hbk, ih (List.nodup_cons.mp hK).2 hb2]

theorem sum_map_zero {β : Type} (ks : List β) : (ks.map fun _ => (0 : ℕ)).sum = 0 := by
  induction ks with
  | nil => rfl
  | cons k ks ih => simp only [List.map_cons, List.sum_cons, Nat.zero_add]; exact ih

theorem length_eq_sum_countP {α β : Type} [DecidableEq β] (l : List α) (f : α → β)
    (ks : List β) (hK : ks.Nodup) (hc : ∀ a ∈ l, f a ∈ ks) :
    (ks.map fun k => l.countP fun a => decide (f a = k)).sum = l.length := by
  induction l with
  | nil =>
    simp only [List.countP_nil]
    exact sum_map_zero ks
  | cons a l ih =>
    simp only [List.countP_cons, decide_eq_true_eq]
    rw [sum_map_add]
    rw [ih fun x hx => hc x (List.mem_cons_of_mem _ hx),
      sum_map_indicator_of_mem ks (f a) hK (hc a (List.mem_cons_self a l))]
    simp [Nat.add_comm]

theorem sum_group_lengths (ws : List WhitespaceEntry) :
    ((sortedGroups ws).map fun g => g.2.length).sum = ws.length := by
  simp only [sortedGroups, List.map_map]
  set s := List.insertionSort diffLe ws with hs
  set keys := List.insertionSort (· ≤ ·) ((s.map fun e => roundHalf e.diff).dedup) with hkeys
  have hnd : keys.Nodup :=
    (List.perm_insertionSort _ _).nodup_iff.mpr (List.nodup_dedup _)
  have hc : ∀ e ∈ s, roundHalf e.diff ∈ keys := by
    intro e he
    rw [hkeys, (List.perm_insertionSort _ _).mem_iff, List.mem_dedup]
    exact List.mem_map_of_mem _ he
  have hmain := length_eq_sum_countP s (fun e => roundHalf e.diff) keys hnd hc
  have hmaps : (keys.map ((fun g : ℚ × List WhitespaceEntry => g.2.length) ∘
      fun k => (k, s.filter fun e => roundHalf e.diff = k))) =
      keys.map fun k => s.countP fun e => decide (roundHalf e.diff = k) := by
    apply List.map_congr_left
    intro k _
    simp only [Function.comp_apply]
    exact (List.countP_eq_length_filter _ _).symm
  rw [hmaps, hmain, hs]
  exact (List.perm_insertionSort diffLe ws).length_eq

theorem selectFromGroup_length_le (t : ℕ) (items : List WhitespaceEntry) (bs : List ℕ)
    (cnt : ℕ) : (selectFromGroup t items bs cnt).1.length ≤ bs.length + items.length := by
  induction items generalizing bs cnt with
  | nil => simp [selectFromGroup]
  | cons e rest ih =>
    simp only [selectFromGroup, List.length_cons]
    by_cases hs : e.start_idx ∈ bs
    · rw [if_pos hs]
      have := ih bs cnt
      omega
    · rw [if_neg hs]
      by_cases ht : t ≤ cnt + 1
      · rw [if_pos ht]
        simp only [List.length_append, List.length_singleton]
        omega
      · rw [if_neg ht]
        have := ih (bs ++ [e.end_idx]) (cnt + 1)
        simp only [List.length_append, List.length_singleton] at this
        omega

theorem selectLoop_length_le (n : ℕ) (gs : List (ℚ × List WhitespaceEntry)) (bs : List ℕ)
    (cnt : ℕ) :
    (selectLoop n gs bs cnt).length ≤ bs.length + (gs.map fun g => g.2.length).sum := by
  induction gs generalizing bs cnt with
  | nil => simp [selectLoop]
  | cons g rest ih =>
    simp only [selectLoop, List.map_cons, List.sum_cons]
    by_cases h : n ≤ bs.length
    · rw [if_pos h]; omega
    · rw [if_neg h]
      have h1 := selectFromGroup_length_le (n - 1) g.2 bs cnt
      have h2 := ih (selectFromGroup (n - 1) g.2 bs cnt).1 (selectFromGroup (n - 1) g.2 bs cnt).2
      omega

theorem boundariesOf_length_le (doc : List Page) (n : ℕ) :
    (boundariesOf doc n).length ≤ (whitespaceDiffs (extractLines doc)).length + 2 := by
  have h1 := selectLoop_length_le n (sortedGroups (whitespaceDiffs (extractLines doc))) [0] 0
  rw [sum_group_lengths] at h1
  simp only [List.length_singleton] at h1
  simp only [boundariesOf, segmentBoundaries]
  split
  · simp only [List.length_append, List.length_singleton]
    omega
  · omega

/-! ### Claim C4: groups are visited in ascending rounded-gap order -/

/-- C4: the group list handed to the boundary-selection loop lists the
distinct rounded gap values in strictly ascending order (never
reversed), and every entry of a group has that group's rounded value, so
boundaries are taken from the smallest rounded-gap groups first. -/
theorem groups_visited_ascending (ws : List WhitespaceEntry) :
    List.Sorted (· < ·) ((sortedGroups ws).map Prod.fst) ∧
    ∀ g ∈ sortedGroups ws, ∀ e ∈ g.2, roundHalf e.diff = g.1 := by
  constructor
  · simp only [sortedGroups, List.map_map]
    have hcomp : ((Prod.fst ∘ fun k : ℚ =>
        (k, (List.insertionSort diffLe ws).filter fun e => roundHalf e.diff = k))) =
        fun k : ℚ => k := rfl
    rw [hcomp, List.map_id']
    have hs := List.sorted_insertionSort (α := ℚ) (· ≤ ·)
      (((List.insertionSort diffLe ws).map fun e => roundHalf e.diff).dedup)
    have hnd : (List.insertionSort (· ≤ ·)
        (((List.insertionSort diffLe ws).map fun e => roundHalf e.diff).dedup)).Nodup :=
      (List.perm_insertionSort _ _).nodup_iff.mpr (List.nodup_dedup _)
    exact hs.lt_of_le hnd
  · intro g hg e he
    simp only [sortedGroups, List.mem_map] at hg
    obtain ⟨k, _, rfl⟩ := hg
    simpa using (List.mem_filter.mp he).2

/-- C4 witness: concrete groups of the rational-gap document. -/
theorem groups_visited_ascending_witness :
    List.Sorted (· < ·) ((sortedGroups (whitespaceDiffs (extractLines exDocC1))).map Prod.fst) ∧
    roundHalf ({ diff := 1, start_idx := 3, end_idx := 4 } : WhitespaceEntry).diff = (1 : ℚ) :=
  ⟨(groups_visited_ascending (whitespaceDiffs (extractLines exDocC1))).1,
   (groups_visited_ascending (whitespaceDiffs (extractLines exDocC1))).2
     ((1 : ℚ), [{ diff := 1, start_idx := 3, end_idx := 4 },
        { diff := 6/5, start_idx := 0, end_idx := 1 },
        { diff := 6/5, start_idx := 1, end_idx := 2 }]) (by with_unfolding_all decide)
     { diff := 1, start_idx := 3, end_idx := 4 } (by with_unfolding_all decide)⟩

/-! ### Claim C3: requesting too many segments -/

/-- C3 counterexample: `exDocC3` has a single whitespace group, yet
requesting `3 > 1 + 1` segments succeeds and writes files, because one
group can contribute several boundaries. -/
theorem more_segments_than_groups_still_succeeds :
    (sortedGroups (whitespaceDiffs (extractLines exDocC3))).length + 1 < 3 ∧
    (segmentPdf exDocC3 3).mismatch = none ∧
    (segmentPdf exDocC3 3).files ≠ [] :=
  ⟨by with_unfolding_all decide, by with_unfolding_all decide, by with_unfolding_all decide⟩

/-- C3 (amended): if the requested number of segments exceeds the number
of whitespace entries plus one, the run terminates with the mismatch
message and zero output files are written. -/
theorem too_many_segments_mismatch (doc : List Page) (n : ℕ)
    (h : (whitespaceDiffs (extractLines doc)).length + 1 < n) :
    (segmentPdf doc n).mismatch = some ((boundariesOf doc n).length - 1, n) ∧
    (segmentPdf doc n).files = [] := by
  have hlt := boundariesOf_length_le doc n
  have hne : (boundariesOf doc n).length ≠ n + 1 := by omega
  rw [segmentPdf_mismatch_eq doc n hne]
  exact ⟨rfl, rfl⟩

/-- C3 witness: one line, zero whitespace entries, three requested
segments. -/
theorem too_many_segments_mismatch_witness :
    (segmentPdf exDocOne 3).mismatch = some ((boundariesOf exDocOne 3).length - 1, 3) ∧
    (segmentPdf exDocOne 3).files = [] :=
  too_many_segments_mismatch exDocOne 3 (by with_unfolding_all decide)

theorem filter_orderedInsert_of_neg {α : Type} (r : α → α → Prop) [DecidableRel r]
    (p : α → Bool) (a : α) (l : List α) (ha : p a = false) :
    (l.orderedInsert r a).filter p = l.filter p := by
  induction l with
  | nil => simp [List.orderedInsert, ha]
  | cons b l ih =>
    simp only [List.orderedInsert]
    split
    · rw [List.filter_cons_of_neg (by simp [ha])]
    · rw [List.filter_cons, List.filter_cons, ih]

theorem filter_orderedInsert_of_pos {α : Type} (r : α → α → Prop) [DecidableRel r]
    (p : α → Bool) (a : α) (l : List α) (ha : p a = true)
    (h : ∀ b, p b = true → r a b) :
    (l.orderedInsert r a).filter p = a :: l.filter p := by
  induction l with
  | nil => simp [List.orderedInsert, ha]
  | cons b l ih =>
    simp only [List.orderedInsert]
    split
    · rw [List.filter_cons_of_pos (by simp [ha])]
    · next hr =>
      have hb : p b = false := by
        cases hpb : p b
        · rfl
        · exact absurd (h b hpb) hr
      rw [List.filter_cons_of_neg (by simp [hb]), ih, List.filter_cons_of_neg (by simp [hb])]

theorem filter_insertionSort {α : Type} (r : α → α → Prop) [DecidableRel r] (p : α → Bool)
    (hp : ∀ a b, p a = true → p b = true → r a b) (l : List α) :
    (List.insertionSort r l).filter p = l.filter p := by
  induction l with
  | nil => rfl
  | cons a l ih =>
    simp only [List.insertionSort]
    cases ha : p a
    · rw [filter_orderedInsert_of_neg r p a _ ha, ih, List.filter_cons_of_neg (by simp [ha])]
    · rw [filter_orderedInsert_of_pos r p a _ ha (fun b hb => hp a b ha hb), ih,
        List.filter_cons_of_pos (by simp [ha])]

theorem pageRecords_page (p : ℕ) (pg : Page) : ∀ r ∈ pageRecords p pg, r.page_num = p := by
  intro r hr
  simp only [pageRecords, List.mem_map] at hr
  obtain ⟨b, _, rfl⟩ := hr
  rfl

theorem mem_extractFrom_ge (k : ℕ) (doc : List Page) :
    ∀ r ∈ extractFrom k doc, k ≤ r.page_num := by
  induction doc generalizing k with
  | nil => simp [extractFrom]
  | cons pg rest ih =>
    intro r hr
    simp only [extractFrom] at hr
    rcases List.mem_append.mp hr with hr | hr
    · have hm : r ∈ pageRecords k pg := (List.perm_insertionSort topLe _).mem_iff.mp hr
      rw [pageRecords_page k pg r hm]
    · exact Nat.le_of_succ_le (ih (k + 1) r hr)

theorem extractFrom_filter_sorted (p : ℕ) (doc : List Page) : ∀ k,
    List.Sorted topLe ((extractFrom k doc).filter fun r => r.page_num = p) := by
  induction doc with
  | nil => intro k; simp [extractFrom]
  | cons pg rest ih =>
    intro k
    simp only [extractFrom, List.filter_append]
    by_cases hk : k = p
    · subst hk
      have h2 : (extractFrom (k + 1) rest).filter (fun r => r.page_num = k) = [] := by
        rw [List.filter_eq_nil_iff]
        intro r hr
        have := mem_extractFrom_ge (k + 1) rest r hr
        simp only [decide_eq_true_eq]
        omega
      have h1 : (List.insertionSort topLe (pageRecords k pg)).filter
          (fun r => r.page_num = k) = List.insertionSort topLe (pageRecords k pg) := by
        rw [List.filter_eq_self]
        intro r hr
        have hm : r ∈ pageRecords k pg := (List.perm_insertionSort topLe _).mem_iff.mp hr
        simp [pageRecords_page k pg r hm]
      rw [h1, h2, List.append_nil]
      exact List.sorted_insertionSort topLe _
    · have h1 : (List.insertionSort topLe (pageRecords k pg)).filter
          (fun r => r.page_num = p) = [] := by
        rw [List.filter_eq_nil_iff]
        intro r hr
        have hm : r ∈ pageRecords k pg := (List.perm_insertionSort topLe _).mem_iff.mp hr
        simp [pageRecords_page k pg r hm, hk]
      rw [h1, List.nil_append]
      exact ih (k + 1)

theorem extractFrom_filter_stable (p : ℕ) (t : ℚ) (doc : List Page) : ∀ k,
    (extractFrom k doc).filter (fun r => r.page_num = p ∧ r.top = t) =
      (rawFrom k doc).filter (fun r => r.page_num = p ∧ r.top = t) := by
  induction doc with
  | nil => intro k; rfl
  | cons pg rest ih =>
    intro k
    simp only [extractFrom, rawFrom, List.filter_append]
    rw [ih (k + 1)]
    congr 1
    refine filter_insertionSort topLe _ (fun a b ha hb => ?_) (pageRecords k pg)
    simp only [decide_eq_true_eq] at ha hb
    show a.top ≤ b.top
    rw [ha.2, hb.2]

/-! ### Claim C6: per-page ordering of the extracted records -/

/-- C6: within every page, the records the Extractor returns are sorted
by `top` ascending, and the sort is stable: records tied on `top` keep
their original block order. -/
theorem extractor_sorted_per_page (doc : List Page) (p : ℕ) :
    List.Sorted topLe ((extractLines doc).filter fun r => r.page_num = p) ∧
    ∀ t : ℚ, (extractLines doc).filter (fun r => r.page_num = p ∧ r.top = t) =
      (rawRecords doc).filter (fun r => r.page_num = p ∧ r.top = t) :=
  ⟨extractFrom_filter_sorted p doc 0, fun t => extractFrom_filter_stable p t doc 0⟩

theorem buildAux_texts (seg : List LineRecord) (doc : List Page) :
    ∀ k, ∀ pgOut ∈ buildAux seg k doc,
      ∃ sel : List LineRecord, (∀ r ∈ sel, r ∈ seg) ∧
        pgOut.texts = sel.map fun r => { x := 10, y := r.top, text := r.text } := by
  induction doc with
  | nil => intro k pgOut h; simp [buildAux] at h
  | cons pg rest ih =>
    intro k pgOut h
    simp only [buildAux] at h
    rcases List.mem_append.mp h with h | h
    · split at h
      · simp at h
      · rw [List.mem_singleton] at h
        subst h
        exact ⟨seg.filter fun l => l.page_num = k,
          fun r hr => (List.mem_filter.mp hr).1, rfl⟩
    · exact ih (k + 1) pgOut h

/-! ### Claim C7: text placement in output segments -/

/-- C7: every output page of every saved segment file carries exactly
the placements `(x = 10, y = record.top, record.text)` of some selection
of extracted line records, so the text placed equals the (trimmed)
record text, at the record's original `top` and a fixed left margin. -/
theorem output_text_round_trip (doc : List Page) (n : ℕ) (f : ℕ × List OutPage)
    (hf : f ∈ (segmentPdf doc n).files) (pg : OutPage) (hpg : pg ∈ f.2) :
    ∃ sel : List LineRecord, (∀ r ∈ sel, r ∈ extractLines doc) ∧
      pg.texts = sel.map fun r => { x := 10, y := r.top, text := r.text } := by
  simp only [segmentPdf] at hf
  split at hf
  · rw [List.mem_filterMap] at hf
    obtain ⟨i, _, hsome⟩ := hf
    split at hsome
    · exact absurd hsome (by simp)
    · have hfe := Option.some.inj hsome
      subst hfe
      obtain ⟨sel, hsub, htexts⟩ := buildAux_texts _ doc 0 pg hpg
      refine ⟨sel, fun r hr => ?_, htexts⟩
      exact List.drop_subset _ _ (List.take_subset _ _ (hsub r hr))
  · simp at hf

/-- C7 witness: the single saved segment of the one-line document. -/
theorem output_text_round_trip_witness :
    ∃ sel : List LineRecord, (∀ r ∈ sel, r ∈ extractLines exDocOne) ∧
      (OutPage.mk 100 100 [{ x := 10, y := 5, text := "hello" }]).texts =
        sel.map fun r => { x := 10, y := r.top, text := r.text } :=
  output_text_round_trip exDocOne 1
    (1, [OutPage.mk 100 100 [{ x := 10, y := 5, text := "hello" }]])
    (by with_unfolding_all decide)
    (OutPage.mk 100 100 [{ x := 10, y := 5, text := "hello" }])
    (by with_unfolding_all decide)
